import Mathlib

/-!
Verification development for the hspice_tr0_parser repository.

The repository ships a thin Python facade (src/hspice_tr0_parser.py) over a
native extension module that holds the actual decoder, streamer and rawfile
emitter; only the facade and the test suite are available as source.  The
facade logic (the debug-to-log-level dispatch) is embedded directly from the
Python source.  The decode pipeline, the chunked streamer and the rawfile
emitter are modelled from the specification (sections 4.3 to 4.8), at the
boundary of the logical scalar stream: samples are IEEE-754 binary64 bit
patterns, and the sentinel comparison is bit-pattern exact as the
specification demands.
-/

/-- Analysis genres supported by the decoder: transient, AC, DC sweep. -/
inductive AnalysisKind
  | transient
  | ac
  | dc
  deriving DecidableEq, Repr

/-- A simulation variable: a case-preserving name and a kind token. -/
structure Variable where
  name : String
  var_type : String
  deriving DecidableEq, Repr

/-- Modelled from the spec: a sample value of a decoded table (section 3).
Transient and DC values are real; AC non-scale columns carry complex values.
Scalars are carried as IEEE-754 binary64 bit patterns, the representation in
which the missing native decoder manipulates them. -/
inductive Value
  | real (bits : Nat)
  | complex (re im : Nat)
  deriving DecidableEq, Repr

/-- Modelled from the spec: a DataTable is an ordered collection of points;
each point is a tuple of values whose length equals the number of
variables (section 3). -/
structure DataTable where
  points : List (List Value)
  deriving DecidableEq, Repr

/-- Modelled from the spec: the WaveformResult aggregate (section 3), as
materialised by the missing native decode entry. -/
structure WaveformResult where
  title : String
  date : String
  analysis : AnalysisKind
  scale_name : String
  vars : List Variable
  tables : List DataTable
  sweep_param : Option String
  deriving DecidableEq, Repr

/-- IEEE-754 binary64 bit pattern of the in-band termination sentinel 1.0e30
(section 6), value 0x46293E5939A08CEA. -/
def sentinelBits : Nat := 5055640609639927018

/-- Exact rational value denoted by an IEEE-754 binary64 bit pattern.
Normal and subnormal patterns are decoded exactly; the decoded test files
contain no NaN or infinity, so those patterns are given arbitrary finite
values by the same formula. -/
def f64val (bits : Nat) : ℚ :=
  let expo : Nat := bits / 2 ^ 52 % 2 ^ 11
  let frac : Nat := bits % 2 ^ 52
  let mag : ℚ :=
    if expo = 0 then (frac : ℚ) / ((2 ^ 1074 : Nat) : ℚ)
    else (((2 ^ 52 + frac) * 2 ^ expo : Nat) : ℚ) / ((2 ^ 1075 : Nat) : ℚ)
  if bits / 2 ^ 63 = 1 then -mag else mag

/-- Modelled from the spec: the Sample Decoder and Sweep Segmenter
(sections 4.4 and 4.5) of the missing native module.  The logical scalar
stream is grouped into points of width W; a sentinel in the scale column
closes the current segment without emitting the sentinel point; a second
sentinel immediately after the first, or end of file after a sentinel, ends
the stream; trailing scalars shorter than one point are tolerated as end of
stream.  The fuel argument is an upper bound on the number of scalars and
makes the recursion structural. -/
def parseSegsAux (W : Nat) : Nat → List Nat → List (List Nat) → List (List (List Nat))
  | 0, _, cur => [cur.reverse]
  | fuel + 1, body, cur =>
    if W = 0 then [cur.reverse]
    else if body.length < W then [cur.reverse]
    else
      let p := body.take W
      let rest := body.drop W
      if p.headD 0 = sentinelBits then
        match rest with
        | [] => [cur.reverse]
        | x :: _ =>
          if x = sentinelBits then [cur.reverse]
          else cur.reverse :: parseSegsAux W fuel rest []
      else parseSegsAux W fuel rest (p :: cur)

/-- Modelled from the spec: segmentation of the sample region into
sentinel-terminated segments of W wide points (sections 4.4 and 4.5). -/
def parseSegments (W : Nat) (body : List Nat) : List (List (List Nat)) :=
  parseSegsAux W body.length body []

/-- Modelled from the spec: the pairing half of the Complex Repack step
(section 4.6), pairing adjacent real samples into complex values. -/
def pairUp : List Nat → List Value
  | [] => []
  | [r] => [Value.real r]
  | r :: i :: rest => Value.complex r i :: pairUp rest

/-- Modelled from the spec: the Complex Repack step (section 4.6).  For AC
analysis the on-disk layout is scale, re, im, re, im, ...; the scale column
stays real and adjacent pairs become one complex value.  For the other
analyses every scalar is real. -/
def repackPoint (a : AnalysisKind) (p : List Nat) : List Value :=
  match a, p with
  | .ac, s :: rest => Value.real s :: pairUp rest
  | .ac, [] => []
  | _, _ => p.map Value.real

/-- Modelled from the spec: the physical point width on disk (section 4.6):
1 + 2 * (numVars - 1) scalars per point for AC, numVars otherwise. -/
def diskWidth (a : AnalysisKind) (numVars : Nat) : Nat :=
  match a with
  | .ac => 1 + 2 * (numVars - 1)
  | _ => numVars

/-- Modelled from the spec: the logical content of an accepted HSPICE file
after block deframing and header decode (sections 4.2 and 4.3): the decoded
header metadata together with the sample region as a stream of binary64 bit
patterns in file order.  Framing and header byte layout are below this
boundary; every claim treated here quantifies over accepted files. -/
structure LogicalFile where
  title : String
  date : String
  analysis : AnalysisKind
  scale_name : String
  vars : List Variable
  sweep_param : Option String
  body : List Nat
  deriving DecidableEq, Repr

/-- Modelled from the spec: the whole-file decode of the missing native
module, from the logical content to the WaveformResult aggregate.  A file
whose declared variable list is empty is inconsistent and fails; failures
surface as none at the public boundary (section 7). -/
def decodeFile (f : LogicalFile) : Option WaveformResult :=
  if f.vars.length = 0 then none
  else
    some ⟨f.title, f.date, f.analysis, f.scale_name, f.vars,
      (parseSegments (diskWidth f.analysis f.vars.length) f.body).map
        (fun seg => ⟨seg.map (repackPoint f.analysis)⟩),
      f.sweep_param⟩

/-- Default sample value used for out-of-range positional access. -/
def defaultValue : Value := Value.real 0

/-- Column i of a table: the i-th entry of every point, in point order. -/
def tableColumn (t : DataTable) (i : Nat) : List Value :=
  t.points.map (fun p => p.getD i defaultValue)

/-- Modelled from the spec: by-name lookup order of the facade
(section 4.9): exact case first, then fully-lowered case. -/
def findVarIdx (vars : List Variable) (name : String) : Option Nat :=
  match vars.findIdx? (fun v => v.name == name) with
  | some i => some i
  | none => vars.findIdx? (fun v => v.name.toLower == name.toLower)

/-- Modelled from the spec: the get method of WaveformResult, returning the
column of the named variable from the first table (section 4.9). -/
def WaveformResult.get (r : WaveformResult) (name : String) : Option (List Value) :=
  (findVarIdx r.vars name).map (fun i => tableColumn (r.tables.headD ⟨[]⟩) i)

/-- All points of a result, across every table, in file order. -/
def allPoints (r : WaveformResult) : List (List Value) :=
  (r.tables.map DataTable.points).flatten

/-- Total point count of a result across every table. -/
def WaveformResult.totalPoints (r : WaveformResult) : Nat :=
  (r.tables.map (fun t => t.points.length)).sum

/-- Plotname token emitted per analysis kind.  Modelled from the spec
section 4.8 for the transient and AC names; the DC name follows the
repository test suite (src/tests/test_convert.py, TestMultiFormatConversion),
which requires the emitted header of a DC sweep conversion to carry the text
DC Analysis and thereby pins the behaviour of the missing native emitter. -/
def plotname : AnalysisKind → String
  | .transient => "Transient Analysis"
  | .ac => "AC Analysis"
  | .dc => "DC Analysis"

/-- Plotname mapping exactly as the spec words it (section 4.8), kept apart
for comparison with the behaviour pinned by the tests. -/
def specPlotname : AnalysisKind → String
  | .transient => "Transient Analysis"
  | .ac => "AC Analysis"
  | .dc => "DC transfer characteristic"

/-- Modelled from the spec: the Flags header value (section 4.8), complex
only for AC. -/
def flagsOf : AnalysisKind → String
  | .ac => "complex"
  | _ => "real"

/-- Little-endian byte serialisation of one 64-bit scalar: eight bytes,
least significant first. -/
def leBytes8 (v : Nat) : List Nat :=
  (List.range 8).map (fun k => v / 256 ^ k % 256)

/-- Modelled from the spec: payload bytes of one sample value (section 4.8).
A real value is one binary64 scalar; a complex value is the real part then
the imaginary part. -/
def valueBytes : Value → List Nat
  | .real b => leBytes8 b
  | .complex re im => leBytes8 re ++ leBytes8 im

/-- Payload bytes of one full point, one row of the row-major matrix. -/
def pointBytes (p : List Value) : List Nat :=
  (p.map valueBytes).flatten

/-- One line of the Variables block: tab, index, tab, name, tab, kind. -/
def varLine (i : Nat) (v : Variable) : String :=
  "\t" ++ toString i ++ "\t" ++ v.name ++ "\t" ++ v.var_type

/-- Modelled from the spec: the ASCII header lines of the emitted rawfile,
in the required order, ending with the Binary marker line (section 4.8). -/
def headerLines (r : WaveformResult) : List String :=
  ["Title: " ++ r.title,
   "Date: " ++ r.date,
   "Plotname: " ++ plotname r.analysis,
   "Flags: " ++ flagsOf r.analysis,
   "No. Variables: " ++ toString r.vars.length,
   "No. Points: " ++ toString (allPoints r).length,
   "Variables:"]
  ++ r.vars.enum.map (fun iv => varLine iv.1 iv.2)
  ++ ["Binary:"]

/-- Join a list of lines into a single text, each line terminated by a
line feed. -/
def concatLines : List String → String
  | [] => ""
  | s :: rest => s ++ "\n" ++ concatLines rest

/-- ASCII bytes of a header string, one byte per character. -/
def asciiBytes (s : String) : List Nat :=
  s.data.map Char.toNat

/-- Modelled from the spec: the Rawfile Emitter (section 4.8): the ASCII
header terminated by the Binary marker line, followed by the little-endian
binary64 sample matrix in row-major order, segments concatenated. -/
def emitRaw (r : WaveformResult) : List Nat :=
  asciiBytes (concatLines (headerLines r)) ++ ((allPoints r).map pointBytes).flatten

/-- Modelled from the spec: the path resolution of the operating system,
below the missing native I/O layer.  A path resolves to the logical content
of the file stored there, or to nothing when the file is missing or its
framing or header is rejected; the empty path never resolves to a file. -/
structure FileSystem where
  lookup : String → Option LogicalFile
  empty_invalid : lookup "" = none

/-- Debug-level table of the facade, embedded from
src/hspice_tr0_parser.py: levels maps 1 to info and 2 to debug. -/
def loggingLevels : List (Int × String) := [(1, "info"), (2, "debug")]

/-- Logging action performed by each facade entry for a debug argument,
embedded from src/hspice_tr0_parser.py: when debug is positive the logging
hook is initialised with the level looked up in loggingLevels, defaulting to
info; otherwise the hook is not invoked.  This block appears verbatim in
read, convert_to_raw, stream and read_raw. -/
def loggingInit (debug : Int) : Option String :=
  if debug > 0 then some ((loggingLevels.lookup debug).getD "info") else none

/-- The whole-file decode entry of the facade.  The debug argument only
selects the logging action, modelled by loggingInit, and does not influence
the returned value; every failure surfaces as none. -/
def hspice_tr0_read (fs : FileSystem) (filename : String) (debug : Int) : Option WaveformResult :=
  match fs.lookup filename with
  | none => none
  | some f => decodeFile f

/-- The conversion entry of the facade.  The writable predicate models
whether the output path can be created and written.  The first component is
the boolean returned to the caller; the second is the rawfile content
written on success. -/
def convert_to_raw (fs : FileSystem) (writable : String → Bool)
    (input_path output_path : String) (debug : Int) : Bool × Option (List Nat) :=
  match fs.lookup input_path with
  | none => (false, none)
  | some f =>
    match decodeFile f with
    | none => (false, none)
    | some r =>
      if writable output_path then (true, some (emitRaw r)) else (false, none)

/-- Numeric scale value carried by a sample: the binary64 value of a real
sample, or of the real part of a complex one.  The scale column of a decoded
point is always real. -/
def Value.scaleVal : Value → ℚ
  | .real b => f64val b
  | .complex re _ => f64val re

/-- Default point used for out-of-range positional access. -/
def defaultPoint : List Value := []

/-- Modelled from the spec: one chunk of the streaming entry (section 4.7):
a chunk index starting at 0, the inclusive scale-column range of the chunk,
and a mapping from variable name to the scalar vector of the chunk. -/
structure Chunk where
  chunk_index : Nat
  scale_first : ℚ
  scale_last : ℚ
  data : List (String × List Value)

/-- Default chunk used for out-of-range positional access. -/
def defaultChunk : Chunk := ⟨0, 0, 0, []⟩

/-- Modelled from the spec: splitting a point list into consecutive groups
of chunk_size points, the last group possibly smaller (section 4.7).  The
fuel argument bounds the number of groups and makes the recursion
structural. -/
def chunksOfAux {α : Type} (cs : Nat) : Nat → List α → List (List α)
  | _, [] => []
  | 0, a :: l => [a :: l]
  | fuel + 1, a :: l => (a :: l).take cs :: chunksOfAux cs fuel ((a :: l).drop cs)

/-- Consecutive groups of cs points covering the whole list in order. -/
def chunksOf {α : Type} (cs : Nat) (l : List α) : List (List α) :=
  chunksOfAux cs l.length l

/-- Modelled from the spec: the column filter of the streaming entry
(section 4.7): with no allow-list every variable is kept; with one, the
scale column is always kept and other columns only when listed. -/
def keepVar (signals : Option (List String)) (isScale : Bool) (name : String) : Bool :=
  match signals with
  | none => true
  | some ss => isScale || ss.contains name

/-- Per-chunk data mapping: for every kept variable, its name paired with
the column of the group, dropped at copy time as decoding is positional. -/
def chunkData (vars : List Variable) (signals : Option (List String))
    (g : List (List Value)) : List (String × List Value) :=
  (vars.enum.filter (fun iv => keepVar signals (iv.1 == 0) iv.2.name)).map
    (fun iv => (iv.2.name, g.map (fun p => p.getD iv.1 defaultValue)))

/-- Assemble one chunk from its index and its group of points. -/
def mkChunk (vars : List Variable) (signals : Option (List String))
    (iv : Nat × List (List Value)) : Chunk :=
  ⟨iv.1,
   ((iv.2.headD defaultPoint).headD defaultValue).scaleVal,
   ((iv.2.getLastD defaultPoint).headD defaultValue).scaleVal,
   chunkData vars signals iv.2⟩

/-- Modelled from the spec: the full decoded point stream of a file, all
segments concatenated in file order, after complex repack. -/
def logicalPoints (f : LogicalFile) : List (List Value) :=
  ((parseSegments (diskWidth f.analysis f.vars.length) f.body).flatten).map
    (repackPoint f.analysis)

/-- The streaming entry of the facade: the finite sequence of chunks it
yields.  A missing or undecodable file terminates the sequence with no
chunks (section 7); otherwise the decoded point stream is split into groups
of chunk_size points and each group becomes one self-contained chunk. -/
def stream (fs : FileSystem) (filename : String) (chunk_size : Nat)
    (signals : Option (List String)) (debug : Int) : List Chunk :=
  match fs.lookup filename with
  | none => []
  | some f =>
    if f.vars.length = 0 then []
    else (chunksOf chunk_size (logicalPoints f)).enum.map (mkChunk f.vars signals)

/-- Shared fixture: a two-variable transient file with two points, used by
the witnesses below.  The body holds the patterns of 1.0 and 2.0 in the
scale column. -/
def witFile : LogicalFile :=
  ⟨"t", "d", .transient, "TIME", [⟨"TIME", "time"⟩, ⟨"v1", "voltage"⟩], none,
   [4607182418800017408, 77, 4611686018427387904, 88]⟩

/-- Shared fixture: a filesystem carrying witFile at every nonempty path. -/
def witFS : FileSystem := ⟨fun s => if s = "" then none else some witFile, by simp⟩

/-- Shared fixture: the decode of witFile. -/
def witRes : WaveformResult :=
  ⟨"t", "d", .transient, "TIME", [⟨"TIME", "time"⟩, ⟨"v1", "voltage"⟩],
   [⟨[[Value.real 4607182418800017408, Value.real 77],
      [Value.real 4611686018427387904, Value.real 88]]⟩], none⟩

/-- C10: for every call of the facade entries read, convert_to_raw or stream
with a debug argument, the shared logging block behaves as follows: debug 0
never invokes the logging hook, debug 2 initialises it at level debug, and
every other positive debug value initialises it at level info. -/
theorem facade_logging_levels (d : Int) :
    loggingInit 0 = none ∧ (d ≤ 0 → loggingInit d = none) ∧
    loggingInit 2 = some "debug" ∧
    (0 < d → d ≠ 2 → loggingInit d = some "info") := by
  refine ⟨by decide, ?_, by decide, ?_⟩
  · intro hd
    simp only [loggingInit, if_neg (by omega : ¬ d > 0)]
  · intro h1 h2
    by_cases h3 : d = 1
    · subst h3; decide
    · simp only [loggingInit, if_pos h1, loggingLevels, List.lookup]
      have hb1 : (d == 1) = false := by simp [h3]
      have hb2 : (d == 2) = false := by simp [h2]
      simp [hb1, hb2]

/-- Witness for C10 at debug level 5. -/
theorem facade_logging_levels_witness :
    (0 : Int) < 5 ∧ (5 : Int) ≠ 2 ∧ loggingInit 5 = some "info" :=
  ⟨by decide, by decide, (facade_logging_levels 5).2.2.2 (by decide) (by decide)⟩

/-- C3: the whole-file decode entry is a total function of its arguments:
on the empty path and on a missing path it returns the absence value none,
a failing decode also surfaces as none, and a non-none return arises only
from a successful decode of the content found at the path. -/
theorem read_error_absence (fs : FileSystem) (p : String) (d : Int) :
    hspice_tr0_read fs "" d = none ∧
    (fs.lookup p = none → hspice_tr0_read fs p d = none) ∧
    (∀ f, fs.lookup p = some f → decodeFile f = none → hspice_tr0_read fs p d = none) ∧
    (∀ r, hspice_tr0_read fs p d = some r → ∃ f, fs.lookup p = some f ∧ decodeFile f = some r) := by
  refine ⟨by simp [hspice_tr0_read, fs.empty_invalid], ?_, ?_, ?_⟩
  · intro h; simp [hspice_tr0_read, h]
  · intro f hf hd; simp [hspice_tr0_read, hf, hd]
  · intro r hr
    unfold hspice_tr0_read at hr
    cases hl : fs.lookup p with
    | none => rw [hl] at hr; exact absurd hr (by simp)
    | some f => rw [hl] at hr; exact ⟨f, rfl, hr⟩

/-- Witness for C3: on a filesystem with no files, reading any path gives
none. -/
theorem read_error_absence_witness :
    hspice_tr0_read ⟨fun _ => none, rfl⟩ "missing.tr0" 0 = none :=
  (read_error_absence ⟨fun _ => none, rfl⟩ "missing.tr0" 0).2.1 rfl

/-- C9: decoding is deterministic: two calls of the whole-file decode entry
on the same path, with any debug arguments, yield results with the same
variable names, identical by-name data vectors, and in fact equal results. -/
theorem read_deterministic (fs : FileSystem) (p : String) (d1 d2 : Int)
    (r1 r2 : WaveformResult)
    (h1 : hspice_tr0_read fs p d1 = some r1) (h2 : hspice_tr0_read fs p d2 = some r2) :
    r1.vars.map Variable.name = r2.vars.map Variable.name ∧
    (∀ name, r1.get name = r2.get name) ∧ r1 = r2 := by
  have hsame : hspice_tr0_read fs p d1 = hspice_tr0_read fs p d2 := rfl
  rw [h1, h2] at hsame
  obtain rfl : r1 = r2 := Option.some.inj hsame
  exact ⟨rfl, fun _ => rfl, rfl⟩

/-- Witness for C9 on the shared fixture. -/
theorem read_deterministic_witness :
    witRes.vars.map Variable.name = witRes.vars.map Variable.name ∧
    (∀ name, witRes.get name = witRes.get name) ∧ witRes = witRes :=
  read_deterministic witFS "a.tr0" 0 2 witRes witRes (by decide) (by decide)

/-- C4: the conversion entry returns a boolean and never raises: it returns
true exactly when the input exists, decodes, and the output path is
writable, which is also exactly when the rawfile content is written; a
missing input or an unwritable output path each force false. -/
theorem convert_boolean_result (fs : FileSystem) (wr : String → Bool)
    (inp out : String) (d : Int) :
    ((convert_to_raw fs wr inp out d).1 = true ↔
      (∃ f r, fs.lookup inp = some f ∧ decodeFile f = some r ∧ wr out = true)) ∧
    ((convert_to_raw fs wr inp out d).1 = true ↔
      (convert_to_raw fs wr inp out d).2 ≠ none) ∧
    (fs.lookup inp = none → (convert_to_raw fs wr inp out d).1 = false) ∧
    (wr out = false → (convert_to_raw fs wr inp out d).1 = false) := by
  unfold convert_to_raw
  cases hl : fs.lookup inp with
  | none => simp
  | some f =>
    cases hd : decodeFile f with
    | none => simp [hd]
    | some r =>
      by_cases hw : wr out = true
      · simp [hd, hw]
      · simp only [Bool.not_eq_true] at hw
        simp [hd, hw]

/-- Witness for C4: on a filesystem with no files, conversion of a missing
input returns false. -/
theorem convert_boolean_result_witness :
    (convert_to_raw ⟨fun _ => none, rfl⟩ (fun _ => true) "in.tr0" "out.raw" 0).1 = false :=
  (convert_boolean_result ⟨fun _ => none, rfl⟩ (fun _ => true) "in.tr0" "out.raw" 0).2.2.1 rfl

/-- Shared fixture: a decodable one-variable DC sweep file with no body. -/
def dcFile : LogicalFile := ⟨"t", "d", .dc, "vx", [⟨"vx", "voltage"⟩], none, []⟩

/-- Counterexample to C2: converting a decodable DC sweep input emits the
Plotname header line DC Analysis, as the repository test suite demands, and
not the line DC transfer characteristic stated by the spec. -/
theorem plotname_dc_counterexample :
    ((decodeFile dcFile).map (fun r => (headerLines r).getD 2 "")) =
      some ("Plotname: " ++ plotname .dc) ∧
    ("Plotname: " ++ plotname .dc) ≠ ("Plotname: " ++ specPlotname .dc) := by
  constructor
  · decide
  · decide

/-- C2 as amended: the emitted Plotname value is DC Analysis for DC sweep
inputs, and in general is one of Transient Analysis, AC Analysis,
DC Analysis according to the analysis kind of the input. -/
theorem convert_plotname_amended (f : LogicalFile) (r : WaveformResult)
    (h : decodeFile f = some r) :
    (headerLines r).getD 2 "" = "Plotname: " ++ plotname r.analysis ∧
    (r.analysis = .dc → (headerLines r).getD 2 "" = "Plotname: DC Analysis") ∧
    (r.analysis = .transient →
      (headerLines r).getD 2 "" = "Plotname: Transient Analysis") ∧
    (r.analysis = .ac → (headerLines r).getD 2 "" = "Plotname: AC Analysis") ∧
    plotname r.analysis ∈ ["Transient Analysis", "AC Analysis", "DC Analysis"] := by
  refine ⟨by simp [headerLines], ?_, ?_, ?_, ?_⟩
  · intro ha; simp [headerLines, ha, plotname]
  · intro ha; simp [headerLines, ha, plotname]
  · intro ha; simp [headerLines, ha, plotname]
  · cases r.analysis <;> simp [plotname]

/-- Witness for C2 as amended, at the DC fixture. -/
theorem convert_plotname_amended_witness :
    (headerLines ⟨"t", "d", .dc, "vx", [⟨"vx", "voltage"⟩], [⟨[]⟩], none⟩).getD 2 ""
      = "Plotname: DC Analysis" :=
  (convert_plotname_amended dcFile
      ⟨"t", "d", .dc, "vx", [⟨"vx", "voltage"⟩], [⟨[]⟩], none⟩ (by decide)).2.1 rfl

/-- Every point assembled by the sample decoder has exactly W scalars. -/
theorem parseSegsAux_point_width (W : Nat) :
    ∀ (fuel : Nat) (body : List Nat) (cur : List (List Nat)),
      (∀ p ∈ cur, p.length = W) →
      ∀ seg ∈ parseSegsAux W fuel body cur, ∀ p ∈ seg, p.length = W := by
  intro fuel
  induction fuel with
  | zero =>
    intro body cur hcur seg hseg p hp
    simp only [parseSegsAux, List.mem_singleton] at hseg
    subst hseg
    exact hcur p (List.mem_reverse.mp hp)
  | succ n ih =>
    intro body cur hcur seg hseg p hp
    by_cases hW : W = 0
    · simp only [parseSegsAux, if_pos hW, List.mem_singleton] at hseg
      subst hseg; exact hcur p (List.mem_reverse.mp hp)
    · by_cases hlen : body.length < W
      · simp only [parseSegsAux, if_neg hW, if_pos hlen, List.mem_singleton] at hseg
        subst hseg; exact hcur p (List.mem_reverse.mp hp)
      · simp only [parseSegsAux, if_neg hW, if_neg hlen] at hseg
        by_cases hsent : (body.take W).headD 0 = sentinelBits
        · rw [if_pos hsent] at hseg
          cases hrest : body.drop W with
          | nil =>
            rw [hrest] at hseg
            simp only [List.mem_singleton] at hseg
            subst hseg; exact hcur p (List.mem_reverse.mp hp)
          | cons x xs =>
            rw [hrest] at hseg
            dsimp only at hseg
            by_cases hx : x = sentinelBits
            · rw [if_pos hx] at hseg
              simp only [List.mem_singleton] at hseg
              subst hseg; exact hcur p (List.mem_reverse.mp hp)
            · rw [if_neg hx] at hseg
              rcases List.mem_cons.mp hseg with hseg | hseg
              · subst hseg; exact hcur p (List.mem_reverse.mp hp)
              · exact ih (x :: xs) [] (by simp) seg hseg p hp
        · rw [if_neg hsent] at hseg
          refine ih (body.drop W) (body.take W :: cur) ?_ seg hseg p hp
          intro q hq
          rcases List.mem_cons.mp hq with hq | hq
          · subst hq
            simp only [List.length_take]
            omega
          · exact hcur q hq

/-- Length of the complex pairing: one value per complete or trailing
pair of scalars. -/
theorem pairUp_length : ∀ l : List Nat, (pairUp l).length = (l.length + 1) / 2
  | [] => by simp [pairUp]
  | [r] => by simp [pairUp]
  | r :: i :: rest => by
      simp only [pairUp, List.length_cons, pairUp_length rest]
      omega

/-- Repacking a full-width disk point yields one value per variable. -/
theorem repackPoint_length (a : AnalysisKind) (n : Nat) (hn : 0 < n)
    (p : List Nat) (hp : p.length = diskWidth a n) :
    (repackPoint a p).length = n := by
  cases a with
  | ac =>
    cases p with
    | nil => simp [diskWidth] at hp; omega
    | cons s rest =>
      simp only [repackPoint, List.length_cons, pairUp_length]
      simp only [diskWidth, List.length_cons] at hp
      omega
  | transient => simp only [repackPoint, List.length_map]; simpa [diskWidth] using hp
  | dc => simp only [repackPoint, List.length_map]; simpa [diskWidth] using hp

/-- Every point of every decoded table is full width. -/
theorem decodeFile_point_width (f : LogicalFile) (r : WaveformResult)
    (h : decodeFile f = some r) :
    ∀ t ∈ r.tables, ∀ p ∈ t.points, p.length = r.vars.length := by
  unfold decodeFile at h
  by_cases h0 : f.vars.length = 0
  · rw [if_pos h0] at h; exact absurd h (by simp)
  · rw [if_neg h0] at h
    obtain rfl : _ = r := Option.some.inj h
    intro t ht p hp
    simp only [List.mem_map] at ht
    obtain ⟨seg, hseg, rfl⟩ := ht
    simp only [List.mem_map] at hp
    obtain ⟨q, hq, rfl⟩ := hp
    have hw : q.length = diskWidth f.analysis f.vars.length :=
      parseSegsAux_point_width _ _ _ [] (by simp) seg hseg q hq
    exact repackPoint_length f.analysis f.vars.length (by omega) q hw

/-- C6: in every successfully decoded result, every table has column count
equal to the number of variables (each point carries exactly one value per
variable), all columns of a table have equal length, and by-name lookup of
any two variables returns vectors of the same length. -/
theorem decoded_result_consistent (f : LogicalFile) (r : WaveformResult)
    (h : decodeFile f = some r) :
    (∀ t ∈ r.tables, ∀ p ∈ t.points, p.length = r.vars.length) ∧
    (∀ t ∈ r.tables, ∀ i j : Nat,
      (tableColumn t i).length = (tableColumn t j).length) ∧
    (∀ n1 n2 v1 v2, r.get n1 = some v1 → r.get n2 = some v2 →
      v1.length = v2.length) := by
  refine ⟨decodeFile_point_width f r h, ?_, ?_⟩
  · intro t _ i j; simp [tableColumn]
  · intro n1 n2 v1 v2 h1 h2
    unfold WaveformResult.get at h1 h2
    obtain ⟨i1, -, rfl⟩ := Option.map_eq_some'.mp h1
    obtain ⟨i2, -, rfl⟩ := Option.map_eq_some'.mp h2
    simp [tableColumn]

/-- Witness for C6 on the shared two-variable fixture. -/
theorem decoded_result_consistent_witness :
    (∀ t ∈ witRes.tables, ∀ p ∈ t.points, p.length = witRes.vars.length) ∧
    (∀ t ∈ witRes.tables, ∀ i j : Nat,
      (tableColumn t i).length = (tableColumn t j).length) ∧
    (∀ n1 n2 v1 v2, witRes.get n1 = some v1 → witRes.get n2 = some v2 →
      v1.length = v2.length) :=
  decoded_result_consistent witFile witRes (by decide)

/-- The point count the emitter writes equals the total point count of the
decoded aggregate. -/
theorem allPoints_length (r : WaveformResult) :
    (allPoints r).length = r.totalPoints := by
  unfold allPoints WaveformResult.totalPoints
  rw [List.length_flatten, List.map_map]
  rfl

/-- C5: for every accepted input, conversion succeeds on a writable output
path and writes the emitted rawfile; its header carries a No. Points value
equal to the total point count of the decoded result, which is the length
of every per-variable column across segments, and a No. Variables value
equal to the number of decoded variables. -/
theorem convert_header_counts (fs : FileSystem) (wr : String → Bool)
    (inp out : String) (d : Int) (f : LogicalFile) (r : WaveformResult)
    (hf : fs.lookup inp = some f) (hr : decodeFile f = some r)
    (hw : wr out = true) :
    convert_to_raw fs wr inp out d = (true, some (emitRaw r)) ∧
    (headerLines r).getD 5 "" = "No. Points: " ++ toString r.totalPoints ∧
    (headerLines r).getD 4 "" = "No. Variables: " ++ toString r.vars.length ∧
    (∀ i : Nat, ((r.tables.map (fun t => tableColumn t i)).flatten).length
      = r.totalPoints) := by
  refine ⟨?_, ?_, by simp [headerLines], ?_⟩
  · simp [convert_to_raw, hf, hr, hw]
  · simp [headerLines, allPoints_length]
  · intro i
    unfold WaveformResult.totalPoints
    rw [List.length_flatten, List.map_map]
    congr 1
    apply List.map_congr_left
    intro t _
    simp [tableColumn]

/-- Witness for C5 on the shared fixture. -/
theorem convert_header_counts_witness :
    convert_to_raw witFS (fun _ => true) "a.tr0" "out.raw" 0
      = (true, some (emitRaw witRes)) ∧
    (headerLines witRes).getD 5 "" = "No. Points: " ++ toString witRes.totalPoints ∧
    (headerLines witRes).getD 4 "" = "No. Variables: " ++ toString witRes.vars.length ∧
    (∀ i : Nat, ((witRes.tables.map (fun t => tableColumn t i)).flatten).length
      = witRes.totalPoints) :=
  convert_header_counts witFS (fun _ => true) "a.tr0" "out.raw" 0 witFile witRes
    (by decide) (by decide) rfl

/-- One scalar always serialises to eight bytes. -/
theorem leBytes8_length (v : Nat) : (leBytes8 v).length = 8 := by
  simp [leBytes8]

/-- Payload bytes of the complex pairing: eight bytes per source scalar. -/
theorem pairUp_bytes_length :
    ∀ l : List Nat, ((pairUp l).map valueBytes).flatten.length = 8 * l.length
  | [] => by simp [pairUp]
  | [r] => by simp [pairUp, valueBytes, leBytes8_length]
  | r :: i :: rest => by
      simp only [pairUp, List.map_cons, List.flatten_cons, List.length_append,
        List.length_cons, pairUp_bytes_length rest, valueBytes, List.length_append,
        leBytes8_length]
      omega

/-- Payload bytes of one repacked point: eight bytes per on-disk scalar. -/
theorem pointBytes_repack_length (a : AnalysisKind) (p : List Nat) :
    (pointBytes (repackPoint a p)).length = 8 * p.length := by
  cases a with
  | ac =>
    cases p with
    | nil => simp [repackPoint, pointBytes]
    | cons s rest =>
      simp only [repackPoint, pointBytes, List.map_cons, List.flatten_cons,
        List.length_append, valueBytes, leBytes8_length, pairUp_bytes_length,
        List.length_cons]
      omega
  | transient =>
    simp only [repackPoint, pointBytes, List.map_map]
    rw [List.length_flatten, List.map_map]
    have : ∀ x ∈ p, ((List.length ∘ valueBytes ∘ Value.real) x) = 8 := by
      intro x _; simp [Function.comp, valueBytes, leBytes8_length]
    rw [List.map_congr_left this]
    simp [Nat.mul_comm]
  | dc =>
    simp only [repackPoint, pointBytes, List.map_map]
    rw [List.length_flatten, List.map_map]
    have : ∀ x ∈ p, ((List.length ∘ valueBytes ∘ Value.real) x) = 8 := by
      intro x _; simp [Function.comp, valueBytes, leBytes8_length]
    rw [List.map_congr_left this]
    simp [Nat.mul_comm]

/-- Decoding preserves the header metadata of the file. -/
theorem decodeFile_fields (f : LogicalFile) (r : WaveformResult)
    (h : decodeFile f = some r) :
    r.analysis = f.analysis ∧ r.vars = f.vars ∧ 0 < f.vars.length := by
  unfold decodeFile at h
  by_cases h0 : f.vars.length = 0
  · rw [if_pos h0] at h; exact absurd h (by simp)
  · rw [if_neg h0] at h
    obtain rfl : _ = r := Option.some.inj h
    exact ⟨rfl, rfl, by omega⟩

/-- Every point of a decoded aggregate is the repacking of a full-width
disk point. -/
theorem decodeFile_allPoints (f : LogicalFile) (r : WaveformResult)
    (h : decodeFile f = some r) :
    ∀ p ∈ allPoints r, ∃ q : List Nat,
      q.length = diskWidth f.analysis f.vars.length ∧
      p = repackPoint f.analysis q := by
  unfold decodeFile at h
  by_cases h0 : f.vars.length = 0
  · rw [if_pos h0] at h; exact absurd h (by simp)
  · rw [if_neg h0] at h
    obtain rfl : _ = r := Option.some.inj h
    intro p hp
    unfold allPoints at hp
    simp only [List.mem_flatten, List.mem_map] at hp
    obtain ⟨pts, ⟨t, ⟨seg, hseg, rfl⟩, rfl⟩, hp⟩ := hp
    simp only [List.mem_map] at hp
    obtain ⟨q, hq, rfl⟩ := hp
    exact ⟨q, parseSegsAux_point_width _ _ _ [] (by simp) seg hseg q hq, rfl⟩

/-- Joining lines distributes over list concatenation. -/
theorem concatLines_append (l1 l2 : List String) :
    concatLines (l1 ++ l2) = concatLines l1 ++ concatLines l2 := by
  induction l1 with
  | nil => apply String.ext; simp [concatLines, String.data_append]
  | cons s rest ih => apply String.ext; simp [concatLines, String.data_append, ih]

/-- Sum of a constant mapping over a list. -/
theorem sum_map_constant {α : Type} (c : Nat) :
    ∀ l : List α, (l.map (fun _ => c)).sum = l.length * c
  | [] => by simp
  | a :: l => by
      simp only [List.map_cons, List.sum_cons, sum_map_constant c l, List.length_cons]
      ring

/-- C8: every emitted rawfile is the ASCII header lines, in the required
field order, terminated by the Binary marker line, followed by the
little-endian binary64 sample matrix in row-major order; each row holds
eight bytes per on-disk scalar, and the total size is the header size plus
points times row width. -/
theorem emitRaw_layout (f : LogicalFile) (r : WaveformResult)
    (h : decodeFile f = some r) :
    headerLines r =
      ["Title: " ++ r.title, "Date: " ++ r.date,
       "Plotname: " ++ plotname r.analysis, "Flags: " ++ flagsOf r.analysis,
       "No. Variables: " ++ toString r.vars.length,
       "No. Points: " ++ toString r.totalPoints, "Variables:"]
      ++ r.vars.enum.map (fun iv => varLine iv.1 iv.2) ++ ["Binary:"] ∧
    concatLines (headerLines r)
      = concatLines ((headerLines r).dropLast) ++ "Binary:\n" ∧
    emitRaw r = asciiBytes (concatLines (headerLines r))
      ++ ((allPoints r).map pointBytes).flatten ∧
    (∀ p ∈ allPoints r,
      (pointBytes p).length = 8 * diskWidth r.analysis r.vars.length) ∧
    (emitRaw r).length = (concatLines (headerLines r)).length
      + r.totalPoints * (8 * diskWidth r.analysis r.vars.length) := by
  obtain ⟨ha, hv, hpos⟩ := decodeFile_fields f r h
  have hwidth : ∀ p ∈ allPoints r,
      (pointBytes p).length = 8 * diskWidth r.analysis r.vars.length := by
    intro p hp
    obtain ⟨q, hq, rfl⟩ := decodeFile_allPoints f r h p hp
    rw [pointBytes_repack_length, hq, ha, hv]
  refine ⟨?_, ?_, rfl, hwidth, ?_⟩
  · unfold headerLines
    rw [allPoints_length]
  · have hform : headerLines r =
        (["Title: " ++ r.title, "Date: " ++ r.date,
          "Plotname: " ++ plotname r.analysis, "Flags: " ++ flagsOf r.analysis,
          "No. Variables: " ++ toString r.vars.length,
          "No. Points: " ++ toString (allPoints r).length, "Variables:"]
         ++ r.vars.enum.map (fun iv => varLine iv.1 iv.2)) ++ ["Binary:"] := by
      unfold headerLines
      rw [List.append_assoc]
    rw [hform, List.dropLast_concat, concatLines_append]
    congr 1
  · unfold emitRaw
    rw [List.length_append, List.length_flatten, List.map_map]
    have hconst : ∀ p ∈ allPoints r,
        (List.length ∘ pointBytes) p = 8 * diskWidth r.analysis r.vars.length := by
      intro p hp; exact hwidth p hp
    rw [List.map_congr_left hconst, sum_map_constant, allPoints_length]
    congr 1
    rw [asciiBytes, List.length_map, String.length]

/-- Witness for C8 on the shared fixture. -/
theorem emitRaw_layout_witness :
    headerLines witRes =
      ["Title: " ++ witRes.title, "Date: " ++ witRes.date,
       "Plotname: " ++ plotname witRes.analysis, "Flags: " ++ flagsOf witRes.analysis,
       "No. Variables: " ++ toString witRes.vars.length,
       "No. Points: " ++ toString witRes.totalPoints, "Variables:"]
      ++ witRes.vars.enum.map (fun iv => varLine iv.1 iv.2) ++ ["Binary:"] ∧
    concatLines (headerLines witRes)
      = concatLines ((headerLines witRes).dropLast) ++ "Binary:\n" ∧
    emitRaw witRes = asciiBytes (concatLines (headerLines witRes))
      ++ ((allPoints witRes).map pointBytes).flatten ∧
    (∀ p ∈ allPoints witRes,
      (pointBytes p).length = 8 * diskWidth witRes.analysis witRes.vars.length) ∧
    (emitRaw witRes).length = (concatLines (headerLines witRes)).length
      + witRes.totalPoints * (8 * diskWidth witRes.analysis witRes.vars.length) :=
  emitRaw_layout witFile witRes (by decide)

/-- Splitting into chunks of any positive size and concatenating the chunks
in order restores the original list. -/
theorem chunksOfAux_flatten {α : Type} (cs : Nat) (hcs : 0 < cs) :
    ∀ (fuel : Nat) (l : List α), l.length ≤ fuel →
      (chunksOfAux cs fuel l).flatten = l := by
  intro fuel
  induction fuel with
  | zero =>
    intro l hl
    have : l = [] := List.length_eq_zero.mp (by omega)
    subst this
    simp [chunksOfAux]
  | succ n ih =>
    intro l hl
    cases l with
    | nil => simp [chunksOfAux]
    | cons a l' =>
      simp only [chunksOfAux, List.flatten_cons]
      have hlen : ((a :: l').drop cs).length ≤ n := by
        simp only [List.length_drop, List.length_cons]
        simp only [List.length_cons] at hl
        omega
      rw [ih _ hlen]
      exact List.take_append_drop cs (a :: l')

/-- Concatenating all chunks of a positive chunk size restores the decoded
point stream. -/
theorem chunksOf_flatten {α : Type} (cs : Nat) (hcs : 0 < cs) (l : List α) :
    (chunksOf cs l).flatten = l :=
  chunksOfAux_flatten cs hcs l.length l le_rfl

/-- The points of the decoded tables, concatenated, are the decoded point
stream that the streamer splits. -/
theorem decodeFile_tables_flatten (f : LogicalFile) (r : WaveformResult)
    (h : decodeFile f = some r) :
    (r.tables.map DataTable.points).flatten = logicalPoints f := by
  unfold decodeFile at h
  by_cases h0 : f.vars.length = 0
  · rw [if_pos h0] at h; exact absurd h (by simp)
  · rw [if_neg h0] at h
    obtain rfl : _ = r := Option.some.inj h
    unfold logicalPoints
    rw [List.map_map]
    exact (List.map_flatten _ _).symm

/-- Positional access into the data mapping of a chunk built with no
allow-list: entry i is the name of variable i paired with column i of the
group. -/
theorem chunkData_none_getD (vars : List Variable) (g : List (List Value))
    (i : Nat) (hi : i < vars.length) :
    (chunkData vars none g).getD i ("", []) =
      ((vars.getD i ⟨"", ""⟩).name, g.map (fun p => p.getD i defaultValue)) := by
  unfold chunkData keepVar
  rw [List.filter_true]
  simp [List.getD, List.getElem?_map, List.getElem?_enum,
    List.getElem?_eq_getElem hi, Function.comp]

/-- C1: for every accepted file and positive chunk size, concatenating the
per-variable columns of all streamed chunks, in chunk order, yields exactly
the per-variable columns of the non-streaming whole-file decode: position
by position the same values, and every chunk labels column i with the name
of variable i. -/
theorem stream_concat_eq_whole_decode (fs : FileSystem) (path : String)
    (cs : Nat) (d1 d2 : Int) (f : LogicalFile) (r : WaveformResult)
    (hf : fs.lookup path = some f) (hr : hspice_tr0_read fs path d1 = some r)
    (hcs : 0 < cs) (i : Nat) (hi : i < r.vars.length) :
    ((stream fs path cs none d2).map
        (fun c => (c.data.getD i ("", [])).2)).flatten
      = (r.tables.map (fun t => tableColumn t i)).flatten ∧
    (∀ c ∈ stream fs path cs none d2,
      (c.data.getD i ("", [])).1 = (r.vars.getD i ⟨"", ""⟩).name) := by
  have hdec : decodeFile f = some r := by
    unfold hspice_tr0_read at hr
    rw [hf] at hr
    exact hr
  obtain ⟨ha, hv, hpos⟩ := decodeFile_fields f r hdec
  have hstream : stream fs path cs none d2 =
      (chunksOf cs (logicalPoints f)).enum.map (mkChunk f.vars none) := by
    unfold stream
    rw [hf]
    dsimp only
    rw [if_neg (by omega : ¬ f.vars.length = 0)]
  constructor
  · rw [hstream, List.map_map]
    have hmap : ((chunksOf cs (logicalPoints f)).enum.map
        ((fun c => (c.data.getD i ("", [])).2) ∘ mkChunk f.vars none)) =
        (chunksOf cs (logicalPoints f)).enum.map
          ((fun g => g.map (fun p => p.getD i defaultValue)) ∘ Prod.snd) := by
      apply List.map_congr_left
      intro iv _
      simp only [Function.comp, mkChunk]
      rw [chunkData_none_getD f.vars iv.2 i (hv ▸ hi)]
    rw [hmap, ← List.map_map, List.enum_map_snd, ← List.map_flatten,
      chunksOf_flatten cs hcs]
    have hrhs : (r.tables.map (fun t => tableColumn t i)).flatten
        = (logicalPoints f).map (fun p => p.getD i defaultValue) := by
      have hcomp : r.tables.map (fun t => tableColumn t i)
          = (r.tables.map DataTable.points).map
              (List.map (fun p => p.getD i defaultValue)) := by
        rw [List.map_map]; rfl
      rw [hcomp, ← List.map_flatten, decodeFile_tables_flatten f r hdec]
    rw [hrhs]
  · intro c hc
    rw [hstream] at hc
    obtain ⟨iv, hiv, rfl⟩ := List.mem_map.mp hc
    simp only [mkChunk]
    rw [chunkData_none_getD f.vars iv.2 i (hv ▸ hi), hv]

/-- Witness for C1 on the shared fixture, chunk size 1, variable 0. -/
theorem stream_concat_eq_whole_decode_witness :
    ((stream witFS "a.tr0" 1 none 0).map
        (fun c => (c.data.getD 0 ("", [])).2)).flatten
      = (witRes.tables.map (fun t => tableColumn t 0)).flatten ∧
    (∀ c ∈ stream witFS "a.tr0" 1 none 0,
      (c.data.getD 0 ("", [])).1 = (witRes.vars.getD 0 ⟨"", ""⟩).name) :=
  stream_concat_eq_whole_decode witFS "a.tr0" 1 0 0 witFile witRes
    (by decide) (by decide) (by decide) 0 (by decide)

/-- The first point of the first chunk is the first point of the split
list, for any positive chunk size. -/
theorem chunksOfAux_head {α : Type} (cs : Nat) (hcs : 0 < cs) (fuel : Nat)
    (m : List α) (y : List α)
    (hy : (chunksOfAux cs fuel m).head? = some y) : y.head? = m.head? := by
  cases m with
  | nil => simp [chunksOfAux] at hy
  | cons b m' =>
    cases fuel with
    | zero =>
      simp only [chunksOfAux, List.head?_cons, Option.some.injEq] at hy
      rw [← hy]
    | succ n =>
      simp only [chunksOfAux, List.head?_cons, Option.some.injEq] at hy
      rw [← hy, List.head?_take]
      rw [if_neg (by omega : ¬ cs = 0)]

/-- Chunking preserves a monotone ordering of a projection: the projection
of the last element of one chunk never exceeds that of the first element of
the next chunk. -/
theorem chunksOfAux_chain {α : Type} (cs : Nat) (hcs : 0 < cs) (f : α → ℚ)
    (d : α) :
    ∀ (fuel : Nat) (l : List α), l.length ≤ fuel →
      List.Chain' (fun a b => f a ≤ f b) l →
      List.Chain' (fun g1 g2 => f (g1.getLastD d) ≤ f (g2.headD d))
        (chunksOfAux cs fuel l) := by
  intro fuel
  induction fuel with
  | zero =>
    intro l hl _
    have : l = [] := List.length_eq_zero.mp (by omega)
    subst this
    simp [chunksOfAux]
  | succ n ih =>
    intro l hl hchain
    cases l with
    | nil => simp [chunksOfAux]
    | cons a l' =>
      simp only [chunksOfAux]
      rw [List.chain'_cons']
      constructor
      · intro y hy
        have hyh : y.head? = ((a :: l').drop cs).head? :=
          chunksOfAux_head cs hcs n ((a :: l').drop cs) y (Option.mem_def.mp hy)
        by_cases hdrop : cs < (a :: l').length
        · have hget : ((a :: l').drop cs).head? = some ((a :: l')[cs]) := by
            rw [List.head?_drop, List.getElem?_eq_getElem hdrop]
          have hylast : (List.take cs (a :: l')).getLastD d = (a :: l')[cs - 1] := by
            have h2 : cs - 1 < (a :: l').length := by omega
            have hlt : (List.take cs (a :: l')).length = cs := by
              rw [List.length_take]
              omega
            rw [List.getLastD_eq_getLast?, List.getLast?_eq_getElem?, hlt,
              List.getElem?_take_of_lt (by omega : cs - 1 < cs),
              List.getElem?_eq_getElem h2]
            rfl
          have hyhead : y.headD d = (a :: l')[cs] := by
            rw [List.headD_eq_head?, hyh, hget]
            rfl
          rw [hylast, hyhead]
          have hidx : cs - 1 < (a :: l').length - 1 := by
            simp only [List.length_cons] at hdrop ⊢
            omega
          have hstep := List.chain'_iff_get.mp hchain (cs - 1) hidx
          have heq : cs - 1 + 1 = cs := by omega
          simp only [List.get_eq_getElem, heq] at hstep
          exact hstep
        · exfalso
          have hdropnil : (a :: l').drop cs = [] := by
            rw [List.drop_eq_nil_iff]
            omega
          rw [hdropnil] at hy
          simp [chunksOfAux] at hy
      · apply ih
        · simp only [List.length_drop, List.length_cons]
          simp only [List.length_cons] at hl
          omega
        · exact hchain.drop cs

/-- Chunk k of a split list is exactly the cs points starting at position
k times cs of that list: chunks cover contiguous, non-overlapping ranges in
list order. -/
theorem chunksOfAux_getElem {α : Type} (cs : Nat) (hcs : 0 < cs) :
    ∀ (fuel : Nat) (l : List α) (k : Nat), l.length ≤ fuel →
      ∀ (hk : k < (chunksOfAux cs fuel l).length),
      (chunksOfAux cs fuel l)[k] = (l.drop (k * cs)).take cs := by
  intro fuel
  induction fuel with
  | zero =>
    intro l k hle hk
    have : l = [] := List.length_eq_zero.mp (by omega)
    subst this
    simp [chunksOfAux] at hk
  | succ n ih =>
    intro l k hle hk
    cases l with
    | nil => simp [chunksOfAux] at hk
    | cons a l' =>
      cases k with
      | zero => simp [chunksOfAux]
      | succ m =>
        simp only [chunksOfAux] at hk ⊢
        rw [List.getElem_cons_succ]
        have hle2 : ((a :: l').drop cs).length ≤ n := by
          simp only [List.length_drop, List.length_cons]
          simp only [List.length_cons] at hle
          omega
        rw [ih ((a :: l').drop cs) m hle2 (by simpa using hk), List.drop_drop]
        congr 2
        ring

/-- C7 as amended: streamed chunks carry chunk_index values 0, 1, 2, ... in
emission order with no gaps, always; chunk k is assembled from exactly the
points k times cs through k times cs plus cs minus 1 of the decoded point
stream, so chunks cover contiguous, non-overlapping point ranges in file
order, always; and whenever the scale column of the decoded point stream is
non-decreasing, the scale_first of each chunk is at least the scale_last of
the previous chunk. -/
theorem stream_chunk_order_amended (fs : FileSystem) (path : String)
    (cs : Nat) (d : Int) (hcs : 0 < cs) :
    ((stream fs path cs none d).map Chunk.chunk_index
      = List.range (stream fs path cs none d).length) ∧
    (∀ f, fs.lookup path = some f →
      ∀ k, k < (stream fs path cs none d).length →
        ((stream fs path cs none d).getD k defaultChunk).data
          = chunkData f.vars none (((logicalPoints f).drop (k * cs)).take cs)) ∧
    (∀ f, fs.lookup path = some f →
      List.Chain' (fun p q : List Value =>
          (p.headD defaultValue).scaleVal ≤ (q.headD defaultValue).scaleVal)
        (logicalPoints f) →
      List.Chain' (fun c1 c2 => c1.scale_last ≤ c2.scale_first)
        (stream fs path cs none d)) := by
  refine ⟨?_, ?_, ?_⟩
  · unfold stream
    cases hl : fs.lookup path with
    | none => simp
    | some f =>
      dsimp only
      by_cases h0 : f.vars.length = 0
      · rw [if_pos h0]
        simp
      · rw [if_neg h0]
        rw [List.map_map, List.length_map, List.enum_length]
        have : (Chunk.chunk_index ∘ mkChunk f.vars none) = Prod.fst := by
          funext iv
          simp [Function.comp, mkChunk]
        rw [this, List.enum_map_fst]
  · intro f hf k hk
    unfold stream at hk ⊢
    rw [hf] at hk ⊢
    dsimp only at hk ⊢
    by_cases h0 : f.vars.length = 0
    · rw [if_pos h0] at hk
      simp at hk
    · rw [if_neg h0] at hk ⊢
      have hklen : k < (chunksOf cs (logicalPoints f)).length := by
        simpa [List.length_map, List.enum_length] using hk
      simp only [List.getD, List.get?_eq_getElem?, List.getElem?_map,
        List.getElem?_enum, List.getElem?_eq_getElem hklen, Option.map_some',
        Option.getD_some, Function.comp, mkChunk]
      congr 1
      exact chunksOfAux_getElem cs hcs (logicalPoints f).length
        (logicalPoints f) k le_rfl (by simpa [chunksOf] using hklen)
  · intro f hf hmono
    unfold stream
    rw [hf]
    dsimp only
    by_cases h0 : f.vars.length = 0
    · rw [if_pos h0]
      simp
    · rw [if_neg h0]
      rw [List.chain'_map]
      have hbase := chunksOfAux_chain cs hcs
        (fun p : List Value => (p.headD defaultValue).scaleVal) defaultPoint
        (logicalPoints f).length (logicalPoints f) le_rfl hmono
      have hsnd : chunksOf cs (logicalPoints f)
          = (chunksOf cs (logicalPoints f)).enum.map Prod.snd :=
        (List.enum_map_snd _).symm
      rw [chunksOf] at hsnd
      rw [hsnd, List.chain'_map] at hbase
      apply List.Chain'.imp ?_ hbase
      intro iv jv hrel
      simpa [mkChunk] using hrel

/-- Shared fixture: like witFile but with a strictly decreasing scale
column: the patterns of 2.0 then 1.0. -/
def cexFile : LogicalFile :=
  ⟨"t", "d", .transient, "TIME", [⟨"TIME", "time"⟩, ⟨"v1", "voltage"⟩], none,
   [4611686018427387904, 77, 4607182418800017408, 88]⟩

/-- Shared fixture: a filesystem carrying cexFile at every nonempty path. -/
def cexFS : FileSystem := ⟨fun s => if s = "" then none else some cexFile, by simp⟩

/-- Counterexample to C7: an accepted file whose scale column decreases
streams, at chunk size 1, into two chunks whose scale ranges go backwards:
the scale_first of the second chunk is strictly below the scale_last of the
first chunk, against the claimed ordering of the ranges. -/
theorem stream_scale_order_counterexample :
    (stream cexFS "cex.tr0" 1 none 0).length = 2 ∧
    ((stream cexFS "cex.tr0" 1 none 0).getD 0 defaultChunk).chunk_index = 0 ∧
    ((stream cexFS "cex.tr0" 1 none 0).getD 1 defaultChunk).chunk_index = 1 ∧
    ((stream cexFS "cex.tr0" 1 none 0).getD 1 defaultChunk).scale_first <
      ((stream cexFS "cex.tr0" 1 none 0).getD 0 defaultChunk).scale_last := by
  refine ⟨by decide, by decide, by decide, ?_⟩
  simp [stream, cexFS, cexFile, logicalPoints, parseSegments, parseSegsAux,
    chunksOf, chunksOfAux, mkChunk, sentinelBits, diskWidth, repackPoint,
    Value.scaleVal, defaultPoint, defaultValue, List.getD]
  norm_num [f64val]

/-- Witness for C7 as amended, on the shared increasing fixture at chunk
size 1: sequential indices, the first chunk built from the first point of
the stream, and ordered scale ranges under the monotone scale column. -/
theorem stream_chunk_order_amended_witness :
    ((stream witFS "a.tr0" 1 none 0).map Chunk.chunk_index
      = List.range (stream witFS "a.tr0" 1 none 0).length) ∧
    ((stream witFS "a.tr0" 1 none 0).getD 0 defaultChunk).data
      = chunkData witFile.vars none (((logicalPoints witFile).drop (0 * 1)).take 1) ∧
    List.Chain' (fun c1 c2 => c1.scale_last ≤ c2.scale_first)
      (stream witFS "a.tr0" 1 none 0) := by
  have h := stream_chunk_order_amended witFS "a.tr0" 1 0 (by decide)
  refine ⟨h.1, h.2.1 witFile (by decide) 0 (by decide), h.2.2 witFile (by decide) ?_⟩
  simp [logicalPoints, witFile, parseSegments, parseSegsAux, diskWidth,
    repackPoint, Value.scaleVal, sentinelBits, List.chain'_cons,
    defaultValue]
  norm_num [f64val]
